import Mathlib

/-!
Verification of the pretty-printing core of `prettycbor` (src/main.rs).

The core is the function `pretty_print(input: &[u8], space_count: usize) -> String`
together with its helpers `process_char`, `write_char`, `newline`, `is_open` and
`is_close`.  We embed it shallowly: the input byte sequence is modelled as a
`List Char` (each element being the image of one input byte under Rust's
`u8 as char` cast), the growing `String` output as a `List Char`, and the
`usize` nesting counter as a `Nat`.

Rust's `*indent_count -= 1` (src/main.rs line 163) is an unchecked `usize`
subtraction.  When `indent_count` is `0` this is an arithmetic-overflow program
error: with overflow checks enabled the program panics at that statement, and
with wrapping semantics the counter becomes `2^64 - 1`, after which the next
`newline` call asks `str::repeat` for on the order of `2^64` spaces and the
process aborts on capacity overflow (e.g. on input `]]`).  We model this error
case by making the scan return `Option`, with `none` standing for the abnormal
termination on depth underflow.  Everywhere else the scan is total and `some`.
-/

namespace PrettyCbor

/-- Translation of `is_open` (src/main.rs lines 176-178): the character opens a
container. -/
def is_open (c : Char) : Bool := c == '{' || c == '['

/-- Translation of `is_close` (src/main.rs lines 180-182): the character closes a
container. -/
def is_close (c : Char) : Bool := c == '}' || c == ']'

/-- Translation of `write_char` (src/main.rs lines 184-192), as the list of
characters it appends to the output: outside a string a space is suppressed and
a colon is followed by one synthesized space; inside a string every character is
appended verbatim. -/
def write_char (c : Char) (in_str : Bool) : List Char :=
  if !in_str && c == ' ' then []
  else if !in_str && c == ':' then [c, ' ']
  else [c]

/-- Translation of `newline` (src/main.rs lines 194-199): a line break followed
by `indent_count * space_count` spaces. -/
def newline (indent_count : Nat) (space_count : Nat) : List Char :=
  '\n' :: List.replicate (indent_count * space_count) ' '

/-- Translation of `process_char` (src/main.rs lines 147-174), returning the
updated `indent_count` together with the characters appended, or `none` for the
`usize` underflow of `*indent_count -= 1` on a closing bracket at depth `0`. -/
def process_char (c : Char) (indent_count : Nat) (space_count : Nat)
    (prev : Option Char) (next : Option Char) (in_str : Bool) :
    Option (Nat × List Char) :=
  if is_open c then
    some (indent_count + 1,
      write_char c in_str ++
        (if next.any (fun ch => !is_close ch) then
          newline (indent_count + 1) space_count
        else []))
  else if is_close c then
    if indent_count = 0 then none
    else
      some (indent_count - 1,
        (if prev.any (fun ch => !is_open ch) then
          newline (indent_count - 1) space_count
        else []) ++ write_char c in_str)
  else if c == ',' then
    some (indent_count, write_char c in_str ++ newline indent_count space_count)
  else
    some (indent_count, write_char c in_str)

/-- Translation of the string-mode toggle in `pretty_print` (src/main.rs lines
124-126): an unescaped double quote (preceding character absent or not a
backslash) flips the flag. -/
def toggleQuote (prev : Option Char) (c : Char) (in_str : Bool) : Bool :=
  if c == '"' && prev.all (fun ch => ch != '\\') then !in_str else in_str

/-- Body of one iteration of the scan loop of `pretty_print` (src/main.rs lines
119-141): toggle the string flag, then either copy the character verbatim (in
string-mode) or dispatch to `process_char`.  Returns the new flag, the new
depth, and the characters appended at this position. -/
def pp_step (space_count : Nat) (c : Char) (prev next : Option Char)
    (in_str : Bool) (indent_count : Nat) : Option (Bool × Nat × List Char) :=
  let in_str' := toggleQuote prev c in_str
  if in_str' then some (in_str', indent_count, write_char c in_str')
  else
    match process_char c indent_count space_count prev next in_str' with
    | none => none
    | some (d, out) => some (in_str', d, out)

/-- Lookahead helper: the character following the current position, where
`rest` is the unscanned remainder and `after` the lookahead past its end.  In
`pretty_print` itself `after = none`, matching `input.get(idx + 1)` returning
`None` at the last index; the parameter makes the scan compositional. -/
def nextChar (rest : List Char) (after : Option Char) : Option Char :=
  match rest with
  | [] => after
  | x :: _ => some x

/-- The scan loop of `pretty_print` (src/main.rs lines 119-142), generalized
over the incoming previous character, string flag and depth, and over the
lookahead `after` past the end of the scanned list.  Returns the final flag,
final depth and emitted output, or `none` on depth underflow. -/
def pp_run (space_count : Nat) (after : Option Char) :
    Option Char → Bool → Nat → List Char → Option (Bool × Nat × List Char)
  | _, in_str, indent_count, [] => some (in_str, indent_count, [])
  | prev, in_str, indent_count, c :: rest =>
    match pp_step space_count c prev (nextChar rest after) in_str indent_count with
    | none => none
    | some (in_str', d, out) =>
      match pp_run space_count after (some c) in_str' d rest with
      | none => none
      | some (bf, df, outRest) => some (bf, df, out ++ outRest)

/-- Translation of `pretty_print` (src/main.rs lines 111-145): scan the whole
input starting outside any string at depth `0`, with no character before the
first position and none after the last.  `none` models the abnormal termination
on depth underflow described in the module docstring. -/
def pretty_print (input : List Char) (space_count : Nat) : Option (List Char) :=
  (pp_run space_count none none false 0 input).map (fun r => r.2.2)

/-- String-mode flag evolution on its own: the fold of the quote toggle of
src/main.rs lines 124-126 over the input.  This is the flag the scan threads
through its loop, isolated from output and depth. -/
def str_flag_core : Option Char → Bool → List Char → Bool
  | _, b, [] => b
  | prev, b, c :: rest => str_flag_core (some c) (toggleQuote prev c b) rest

/-- The string-mode flag after scanning `input` from the initial state
(outside any string, no previous character). -/
def str_flag (input : List Char) : Bool := str_flag_core none false input

/-- Characters that survive deleting every space and line break. -/
def keep_non_ws (c : Char) : Bool := !(c == ' ' || c == '\n')

/-- Previous-character helper for splitting a scan: the character just before
`ys` when the input is `xs ++ ys` and `prev` precedes `xs`. -/
def lastPrev (prev : Option Char) : List Char → Option Char
  | [] => prev
  | x :: xs => lastPrev (some x) xs

/-- Scan-time depth discipline: walking the input with the string-mode toggle,
no closing bracket outside a string is ever met while the depth counter is `0`.
This is exactly the condition under which the `usize` decrement of
`process_char` never underflows. -/
def depth_ok : Option Char → Bool → Nat → List Char → Bool
  | _, _, _, [] => true
  | prev, b, d, c :: rest =>
    let b' := toggleQuote prev c b
    if b' then depth_ok (some c) b' d rest
    else if is_open c then depth_ok (some c) b' (d + 1) rest
    else if is_close c then d != 0 && depth_ok (some c) b' (d - 1) rest
    else depth_ok (some c) b' d rest

/-- Well-formedness of an input in the sense of the spec, phrased over the
scanner's own string masking: walking the input with the string-mode toggle,
every closing bracket outside a string arrives at positive depth (brackets
never underflow), the depth is back to `0` after the last character (brackets
balanced), and the string flag is off at the end (all quotes paired, the input
does not end mid-string). -/
def wf_scan : Option Char → Bool → Nat → List Char → Bool
  | _, b, d, [] => !b && d == 0
  | prev, b, d, c :: rest =>
    let b' := toggleQuote prev c b
    if b' then wf_scan (some c) b' d rest
    else if is_open c then wf_scan (some c) b' (d + 1) rest
    else if is_close c then d != 0 && wf_scan (some c) b' (d - 1) rest
    else wf_scan (some c) b' d rest

/-- Well-formed input: balanced brackets and paired quotes, starting outside
any string at depth `0`. -/
def well_formed (input : List Char) : Bool := wf_scan none false 0 input

theorem lastPrev_nil (prev : Option Char) : lastPrev prev [] = prev := rfl

theorem lastPrev_cons (prev : Option Char) (x : Char) (xs : List Char) :
    lastPrev prev (x :: xs) = lastPrev (some x) xs := rfl

/-- The previous-character helper is the last element of the scanned part, or
the inherited previous character when the scanned part is empty. -/
theorem lastPrev_eq_getLast (prev : Option Char) (xs : List Char) :
    lastPrev prev xs =
      match xs.getLast? with
      | some c => some c
      | none => prev := by
  induction xs generalizing prev with
  | nil => rfl
  | cons x ys ih =>
    rw [lastPrev_cons, ih]
    cases ys with
    | nil => rfl
    | cons y zs =>
      rw [List.getLast?_cons_cons]
      cases h : (y :: zs).getLast? with
      | none => exact absurd (List.getLast?_eq_none_iff.mp h) (by simp)
      | some c => rfl

theorem nextChar_append (xs ys : List Char) (after : Option Char) :
    nextChar (xs ++ ys) after = nextChar xs (nextChar ys after) := by
  cases xs with
  | nil => rfl
  | cons x xs => rfl

/-- Splitting the scan at a list boundary: scanning `xs ++ ys` is scanning `xs`
with lookahead into `ys`, then scanning `ys` from the state reached, with the
last character of `xs` as the previous character. -/
theorem pp_run_append (space_count : Nat) (after prev : Option Char) (b : Bool)
    (d : Nat) (xs ys : List Char) :
    pp_run space_count after prev b d (xs ++ ys) =
      match pp_run space_count (nextChar ys after) prev b d xs with
      | none => none
      | some (b', d', o) =>
        match pp_run space_count after (lastPrev prev xs) b' d' ys with
        | none => none
        | some (bf, df, o₂) => some (bf, df, o ++ o₂) := by
  induction xs generalizing prev b d with
  | nil =>
    cases h : pp_run space_count after prev b d ys with
    | none => simp [pp_run, lastPrev_nil, h]
    | some r => simp [pp_run, lastPrev_nil, h]
  | cons x xs ih =>
    simp only [List.cons_append, pp_run, List.append_eq, nextChar_append, lastPrev_cons]
    cases hstep : pp_step space_count x prev (nextChar xs (nextChar ys after)) b d with
    | none => rfl
    | some r =>
      obtain ⟨b', d', out⟩ := r
      dsimp only
      rw [ih]
      cases h1 : pp_run space_count (nextChar ys after) (some x) b' d' xs with
      | none => rfl
      | some r1 =>
        obtain ⟨b2, d2, o⟩ := r1
        dsimp only
        cases h2 : pp_run space_count after (lastPrev (some x) xs) b2 d2 ys with
        | none => rfl
        | some r2 =>
          obtain ⟨bf, df, o₂⟩ := r2
          simp [List.append_assoc]

/-- Splicing a single character: scanning `pre ++ c :: post` is scanning `pre`
(with `c` as lookahead), then stepping on `c`, then scanning `post`. -/
theorem pp_run_splice (sc : Nat) (pre post : List Char) (c : Char) (b : Bool)
    (d : Nat) (o : List Char)
    (hpre : pp_run sc (some c) none false 0 pre = some (b, d, o)) :
    pp_run sc none none false 0 (pre ++ c :: post) =
      match pp_step sc c (lastPrev none pre) (nextChar post none) b d with
      | none => none
      | some (b', d', out) =>
        match pp_run sc none (some c) b' d' post with
        | none => none
        | some (bf, df, o₂) => some (bf, df, o ++ (out ++ o₂)) := by
  rw [pp_run_append sc none none false 0 pre (c :: post)]
  have h1 : nextChar (c :: post) none = some c := rfl
  rw [h1, hpre]
  dsimp only
  simp only [pp_run]
  have h2 : nextChar post none = nextChar post none := rfl
  cases hstep : pp_step sc c (lastPrev none pre) (nextChar post none) b d with
  | none => rfl
  | some r =>
    obtain ⟨b', d', out⟩ := r
    dsimp only
    cases hrun : pp_run sc none (some c) b' d' post with
    | none => rfl
    | some r2 => rfl

/-- C2: a character scanned while the string-mode flag is set is reproduced in
the output verbatim, with no space suppression, colon spacing, line break or
indentation, and with the nesting depth unchanged: the output of the whole
input is the output of the prefix, then the character itself, then the output
of the rest of the scan continued in string-mode at the same depth. -/
theorem string_mode_chars_copied_verbatim (sc : Nat) (pre post : List Char)
    (c : Char) (b : Bool) (d : Nat) (o : List Char)
    (hpre : pp_run sc (some c) none false 0 pre = some (b, d, o))
    (hin : toggleQuote (lastPrev none pre) c b = true) :
    pp_run sc none none false 0 (pre ++ c :: post) =
      match pp_run sc none (some c) true d post with
      | none => none
      | some (bf, df, o₂) => some (bf, df, o ++ c :: o₂) := by
  rw [pp_run_splice sc pre post c b d o hpre]
  have hchunk : pp_step sc c (lastPrev none pre) (nextChar post none) b d =
      some (true, d, [c]) := by
    unfold pp_step
    rw [hin]
    simp [write_char]
  rw [hchunk]
  dsimp only
  cases hrun : pp_run sc none (some c) true d post with
  | none => rfl
  | some r2 =>
    obtain ⟨bf, df, o₂⟩ := r2
    simp

theorem string_mode_chars_copied_verbatim_witness :
    pp_run 2 none none false 0 (['"'] ++ 'x' :: ['"']) =
      match pp_run 2 none (some 'x') true 0 ['"'] with
      | none => none
      | some (bf, df, o₂) => some (bf, df, ['"'] ++ 'x' :: o₂) :=
  string_mode_chars_copied_verbatim 2 ['"'] ['"'] 'x' true 0 ['"']
    (by decide) (by decide)

/-- C5: a colon scanned outside a string is emitted followed by exactly one
synthesized space, and the concrete input from the spec formats as stated:
keys and values separated by a colon and one space, elements broken after each
comma. -/
theorem colon_emits_single_space :
    (∀ (sc : Nat) (pre post : List Char) (b : Bool) (d : Nat) (o : List Char),
      pp_run sc (some ':') none false 0 pre = some (b, d, o) →
      toggleQuote (lastPrev none pre) ':' b = false →
      pp_run sc none none false 0 (pre ++ ':' :: post) =
        match pp_run sc none (some ':') false d post with
        | none => none
        | some (bf, df, o₂) => some (bf, df, o ++ ':' :: ' ' :: o₂)) ∧
    pretty_print ['{', '"', 'a', '"', ':', '1', ',', '"', 'b', '"', ':', '2', '}'] 2 =
      some ['{', '\n', ' ', ' ', '"', 'a', '"', ':', ' ', '1', ',', '\n', ' ', ' ',
        '"', 'b', '"', ':', ' ', '2', '\n', '}'] := by
  constructor
  · intro sc pre post b d o hpre hout
    rw [pp_run_splice sc pre post ':' b d o hpre]
    have hchunk : pp_step sc ':' (lastPrev none pre) (nextChar post none) b d =
        some (false, d, [':', ' ']) := by
      unfold pp_step
      rw [hout]
      simp [process_char, is_open, is_close, write_char]
    rw [hchunk]
    dsimp only
    cases hrun : pp_run sc none (some ':') false d post with
    | none => rfl
    | some r2 =>
      obtain ⟨bf, df, o₂⟩ := r2
      simp
  · decide

theorem colon_emits_single_space_witness :
    pp_run 2 none none false 0 (['"', 'a', '"'] ++ ':' :: ['1']) =
      match pp_run 2 none (some ':') false 0 ['1'] with
      | none => none
      | some (bf, df, o₂) => some (bf, df, ['"', 'a', '"'] ++ ':' :: ' ' :: o₂) :=
  colon_emits_single_space.1 2 ['"', 'a', '"'] ['1'] false 0 ['"', 'a', '"']
    (by decide) (by decide)

/-- C6: a space character scanned outside a string is suppressed: it
contributes nothing at all to the output, which is the output of the prefix
followed directly by the output of the rest of the scan, at unchanged flag and
depth. -/
theorem space_outside_string_suppressed (sc : Nat) (pre post : List Char)
    (b : Bool) (d : Nat) (o : List Char)
    (hpre : pp_run sc (some ' ') none false 0 pre = some (b, d, o))
    (hout : toggleQuote (lastPrev none pre) ' ' b = false) :
    pp_run sc none none false 0 (pre ++ ' ' :: post) =
      match pp_run sc none (some ' ') false d post with
      | none => none
      | some (bf, df, o₂) => some (bf, df, o ++ o₂) := by
  rw [pp_run_splice sc pre post ' ' b d o hpre]
  have hchunk : pp_step sc ' ' (lastPrev none pre) (nextChar post none) b d =
      some (false, d, []) := by
    unfold pp_step
    rw [hout]
    simp [process_char, is_open, is_close, write_char]
  rw [hchunk]
  dsimp only
  cases hrun : pp_run sc none (some ' ') false d post with
  | none => rfl
  | some r2 =>
    obtain ⟨bf, df, o₂⟩ := r2
    simp

theorem space_outside_string_suppressed_witness :
    pp_run 2 none none false 0 (['{', '"', 'a', '"', ':'] ++ ' ' :: ['1', '}']) =
      match pp_run 2 none (some ' ') false 1 ['1', '}'] with
      | none => none
      | some (bf, df, o₂) =>
        some (bf, df, ['{', '\n', ' ', ' ', '"', 'a', '"', ':', ' '] ++ o₂) :=
  space_outside_string_suppressed 2 ['{', '"', 'a', '"', ':'] ['1', '}'] false 1
    ['{', '\n', ' ', ' ', '"', 'a', '"', ':', ' '] (by decide) (by decide)

/-- C7 counterexample: when the opening bracket is the last character of the
input there is no next character — so in particular the next character is not
a closing bracket — yet the formatter emits no line break and no indentation
after it: the output for input `{` at indent width 2 is just `{`, not `{`
followed by a line break and two spaces. -/
theorem open_bracket_at_end_no_newline :
    pretty_print ['{'] 2 = some ['{'] ∧
      (['{'] : List Char) ≠ '{' :: '\n' :: List.replicate (1 * 2) ' ' := by
  constructor
  · decide
  · decide

/-- C7 (amended): for every opening bracket scanned outside a string the
formatter emits the bracket and increments the nesting depth, and then emits a
line break followed by `indent_width * new_depth` spaces if and only if a next
character exists and it is not a closing bracket (when the bracket is the last
input character, no line break is emitted). -/
theorem open_bracket_newline_iff_next_not_close (sc : Nat) (pre post : List Char)
    (c : Char) (b : Bool) (d : Nat) (o : List Char)
    (hc : c = '{' ∨ c = '[')
    (hpre : pp_run sc (some c) none false 0 pre = some (b, d, o))
    (hout : toggleQuote (lastPrev none pre) c b = false) :
    pp_run sc none none false 0 (pre ++ c :: post) =
      match pp_run sc none (some c) false (d + 1) post with
      | none => none
      | some (bf, df, o₂) =>
        some (bf, df,
          o ++ ((c :: (match nextChar post none with
            | none => []
            | some ch =>
              if is_close ch then []
              else '\n' :: List.replicate ((d + 1) * sc) ' ')) ++ o₂)) := by
  rw [pp_run_splice sc pre post c b d o hpre]
  have hopen : is_open c = true := by
    rcases hc with h | h <;> simp [h, is_open]
  have hwc : write_char c false = [c] := by
    rcases hc with h | h <;> subst h <;> rfl
  have hchunk : pp_step sc c (lastPrev none pre) (nextChar post none) b d =
      some (false, d + 1, c :: (match nextChar post none with
        | none => []
        | some ch =>
          if is_close ch then []
          else '\n' :: List.replicate ((d + 1) * sc) ' ')) := by
    simp only [pp_step, hout, Bool.false_eq_true, if_false, process_char, hopen,
      if_true, hwc]
    cases hnext : nextChar post none with
    | none => simp [newline]
    | some ch =>
      cases hcl : is_close ch with
      | true => simp [newline, hcl]
      | false => simp [newline, hcl]
  rw [hchunk]

theorem open_bracket_newline_iff_next_not_close_witness :
    pp_run 2 none none false 0 ([] ++ '{' :: ['1']) =
      match pp_run 2 none (some '{') false (0 + 1) ['1'] with
      | none => none
      | some (bf, df, o₂) =>
        some (bf, df,
          [] ++ (('{' :: (match nextChar ['1'] none with
            | none => []
            | some ch =>
              if is_close ch then []
              else '\n' :: List.replicate ((0 + 1) * 2) ' ')) ++ o₂)) :=
  open_bracket_newline_iff_next_not_close 2 [] ['1'] '{' false 0 []
    (Or.inl rfl) (by decide) (by decide)

/-- C9: calling the formatter on the empty input returns the empty output (and
no error) for every indent width. -/
theorem empty_input_empty_output (space_count : Nat) :
    pretty_print [] space_count = some [] := rfl

theorem run_tail_isSome (x : Option (Bool × Nat × List Char)) (out : List Char) :
    (match x with
      | none => none
      | some (bf, df, o) => some (bf, df, out ++ o)).isSome = x.isSome := by
  cases x with
  | none => rfl
  | some r =>
    obtain ⟨a, bb, cc⟩ := r
    rfl

/-- The scan completes exactly when the depth discipline holds, from any
starting state. -/
theorem pp_run_isSome_eq_depth_ok (sc : Nat) (after : Option Char) :
    ∀ (input : List Char) (prev : Option Char) (b : Bool) (d : Nat),
      (pp_run sc after prev b d input).isSome = depth_ok prev b d input := by
  intro input
  induction input with
  | nil => intro prev b d; rfl
  | cons c rest ih =>
    intro prev b d
    simp only [pp_run, depth_ok, pp_step]
    cases hb : toggleQuote prev c b with
    | true =>
      simp only [if_true]
      rw [run_tail_isSome, ih]
    | false =>
      simp only [Bool.false_eq_true, if_false]
      by_cases hopen : is_open c = true
      · simp only [process_char, hopen, if_true]
        rw [run_tail_isSome, ih]
      · by_cases hclose : is_close c = true
        · by_cases hd : d = 0
          · subst hd
            simp only [process_char, hopen, hclose, if_true, if_false,
              Bool.false_eq_true]
            simp
          · simp only [process_char, hopen, hclose, hd, if_true, if_false,
              Bool.false_eq_true]
            rw [run_tail_isSome, ih]
            simp [hd]
        · by_cases hcomma : (c == ',') = true
          · simp only [process_char, hopen, hclose, hcomma, if_true, if_false,
              Bool.false_eq_true]
            rw [run_tail_isSome, ih]
          · simp only [process_char, hopen, hclose, hcomma, if_true, if_false,
              Bool.false_eq_true]
            rw [run_tail_isSome, ih]

/-- C1 counterexample: on the input `]]` (an unmatched closing bracket driving
the depth below zero) the formatter does not run to completion with an output
string: the `usize` decrement underflows, which the embedding records as
`none` (a panic under overflow checks; under wrapping semantics the wrapped
depth makes the following `newline` request about `2^64` spaces and the
process aborts). -/
theorem pretty_print_panics_on_unmatched_close :
    pretty_print [']', ']'] 2 = none := by decide

/-- C1 (amended): for every input and indent width the formatter is
deterministic (it is a function) and returns an output string precisely when
no closing bracket outside a string is scanned at depth `0`; on inputs with an
unmatched closing bracket the unchecked depth decrement underflows instead of
completing. -/
theorem pretty_print_total_iff_depth_ok (input : List Char) (sc : Nat) :
    (∃ out, pretty_print input sc = some out) ↔
      depth_ok none false 0 input = true := by
  unfold pretty_print
  rw [← pp_run_isSome_eq_depth_ok sc none input none false 0]
  cases pp_run sc none none false 0 input with
  | none => simp
  | some r => simp

/-- On well-formed remaining input, the scan completes and its final string
flag is `false` and its final depth is `0`. -/
theorem wf_scan_run (sc : Nat) (after : Option Char) :
    ∀ (input : List Char) (prev : Option Char) (b : Bool) (d : Nat),
      wf_scan prev b d input = true →
      ∃ out, pp_run sc after prev b d input = some (false, 0, out) := by
  intro input
  induction input with
  | nil =>
    intro prev b d h
    simp only [wf_scan, Bool.and_eq_true, Bool.not_eq_true', beq_iff_eq] at h
    obtain ⟨hb, hd⟩ := h
    subst hb
    subst hd
    exact ⟨[], rfl⟩
  | cons c rest ih =>
    intro prev b d h
    simp only [wf_scan] at h
    simp only [pp_run, pp_step]
    cases hb : toggleQuote prev c b with
    | true =>
      rw [hb] at h
      simp only [if_true] at h
      obtain ⟨out, hrun⟩ := ih (some c) true d h
      refine ⟨write_char c true ++ out, ?_⟩
      simp only [if_true]
      rw [hrun]
    | false =>
      rw [hb] at h
      simp only [Bool.false_eq_true, if_false] at h
      simp only [Bool.false_eq_true, if_false]
      by_cases hopen : is_open c = true
      · rw [if_pos hopen] at h
        obtain ⟨out, hrun⟩ := ih (some c) false (d + 1) h
        refine ⟨(write_char c false ++
          (if (nextChar rest after).any (fun ch => !is_close ch) then
            newline (d + 1) sc
          else [])) ++ out, ?_⟩
        simp only [process_char, hopen, if_true]
        rw [hrun]
      · rw [if_neg hopen] at h
        by_cases hclose : is_close c = true
        · rw [if_pos hclose] at h
          simp only [Bool.and_eq_true, bne_iff_ne, ne_eq] at h
          obtain ⟨hd, h2⟩ := h
          obtain ⟨out, hrun⟩ := ih (some c) false (d - 1) h2
          refine ⟨((if prev.any (fun ch => !is_open ch) then
              newline (d - 1) sc
            else []) ++ write_char c false) ++ out, ?_⟩
          simp only [process_char, hopen, hclose, if_true, Bool.false_eq_true,
            if_false, hd]
          rw [hrun]
        · rw [if_neg hclose] at h
          obtain ⟨out, hrun⟩ := ih (some c) false d h
          by_cases hcomma : (c == ',') = true
          · refine ⟨(write_char c false ++ newline d sc) ++ out, ?_⟩
            simp only [process_char, hopen, hclose, hcomma, if_true,
              Bool.false_eq_true, if_false]
            rw [hrun]
          · refine ⟨write_char c false ++ out, ?_⟩
            simp only [process_char, hopen, hclose, hcomma, if_true,
              Bool.false_eq_true, if_false]
            rw [hrun]

/-- C8: for every well-formed input (balanced brackets, all quotes properly
paired, not ending mid-string) and every indent width, the scan starts with
string flag `false` and depth `0` and ends with string flag `false` and depth
`0` again. -/
theorem well_formed_depth_returns_zero (input : List Char) (sc : Nat)
    (h : well_formed input = true) :
    ∃ out, pp_run sc none none false 0 input = some (false, 0, out) :=
  wf_scan_run sc none input none false 0 h

theorem well_formed_depth_returns_zero_witness :
    well_formed ['{', '"', 'a', '"', ':', '1', '}'] = true ∧
      ∃ out, pp_run 2 none none false 0 ['{', '"', 'a', '"', ':', '1', '}'] =
        some (false, 0, out) :=
  ⟨by decide, well_formed_depth_returns_zero ['{', '"', 'a', '"', ':', '1', '}'] 2
    (by decide)⟩

/-- C4: the input `{}` formats to exactly `{}` and the input `[]` to exactly
`[]` for every indent width, and `{"a":[]}` at indent width 2 formats to
`{`, line break, two spaces, `"a": []`, line break, `}` — an empty container
is rendered as a single token with no internal line break. -/
theorem empty_containers_collapse :
    (∀ w : Nat, pretty_print ['{', '}'] w = some ['{', '}']) ∧
    (∀ w : Nat, pretty_print ['[', ']'] w = some ['[', ']']) ∧
    pretty_print ['{', '"', 'a', '"', ':', '[', ']', '}'] 2 =
      some ['{', '\n', ' ', ' ', '"', 'a', '"', ':', ' ', '[', ']', '\n', '}'] := by
  refine ⟨fun w => rfl, fun w => rfl, by decide⟩

theorem lastPrev_none_eq_getLast (xs : List Char) :
    lastPrev none xs = xs.getLast? := by
  rw [lastPrev_eq_getLast]
  cases xs.getLast? with
  | none => rfl
  | some c => rfl

theorem str_flag_core_append (xs ys : List Char) :
    ∀ (prev : Option Char) (b : Bool),
      str_flag_core prev b (xs ++ ys) =
        str_flag_core (lastPrev prev xs) (str_flag_core prev b xs) ys := by
  induction xs with
  | nil => intro prev b; rfl
  | cons x xs ih =>
    intro prev b
    simp only [List.cons_append, str_flag_core, lastPrev_cons]
    exact ih (some x) (toggleQuote prev x b)

theorem pp_step_flag (sc : Nat) (c : Char) (prev next : Option Char) (b : Bool)
    (d : Nat) (b1 : Bool) (d1 : Nat) (out : List Char)
    (h : pp_step sc c prev next b d = some (b1, d1, out)) :
    b1 = toggleQuote prev c b := by
  unfold pp_step at h
  cases ht : toggleQuote prev c b with
  | true =>
    rw [ht] at h
    simp only [if_true, Option.some.injEq, Prod.mk.injEq] at h
    exact h.1.symm
  | false =>
    rw [ht] at h
    simp only [Bool.false_eq_true, if_false] at h
    cases hp : process_char c d sc prev next false with
    | none => rw [hp] at h; exact absurd h (by simp)
    | some r =>
      obtain ⟨d2, o⟩ := r
      rw [hp] at h
      simp only [Option.some.injEq, Prod.mk.injEq] at h
      exact h.1.symm

/-- The string flag returned by a successful scan is the standalone flag
fold over the scanned characters. -/
theorem pp_run_flag (sc : Nat) (after : Option Char) :
    ∀ (input : List Char) (prev : Option Char) (b : Bool) (d : Nat)
      (r : Bool × Nat × List Char),
      pp_run sc after prev b d input = some r →
      r.1 = str_flag_core prev b input := by
  intro input
  induction input with
  | nil =>
    intro prev b d r h
    simp only [pp_run, Option.some.injEq] at h
    rw [← h]
    rfl
  | cons c rest ih =>
    intro prev b d r h
    simp only [pp_run] at h
    cases hstep : pp_step sc c prev (nextChar rest after) b d with
    | none => rw [hstep] at h; exact absurd h (by simp)
    | some r1 =>
      obtain ⟨b1, d1, out1⟩ := r1
      rw [hstep] at h
      dsimp only at h
      cases hrun : pp_run sc after (some c) b1 d1 rest with
      | none => rw [hrun] at h; exact absurd h (by simp)
      | some r2 =>
        obtain ⟨b2, d2, o2⟩ := r2
        rw [hrun] at h
        dsimp only at h
        cases h
        have hb1 : b1 = toggleQuote prev c b :=
          pp_step_flag sc c prev (nextChar rest after) b d b1 d1 out1 hstep
        have h2 : b2 = str_flag_core (some c) b1 rest :=
          ih (some c) b1 d1 (b2, d2, o2) hrun
        simp only [str_flag_core]
        rw [← hb1]
        exact h2

/-- C3: the string-mode flag is toggled at a double-quote position if and only
if there is no preceding character or the immediately preceding character is
not a backslash (in particular a backslash that is itself escaped still
suppresses the toggle, since only the immediately preceding character is
inspected); and this flag fold is exactly the flag the formatter's scan
carries. -/
theorem quote_toggles_iff_prev_not_backslash :
    (∀ pre : List Char,
      (str_flag (pre ++ ['"']) = !str_flag pre) ↔
        (pre = [] ∨ pre.getLast? ≠ some '\\')) ∧
    (∀ (sc : Nat) (input : List Char) (r : Bool × Nat × List Char),
      pp_run sc none none false 0 input = some r → r.1 = str_flag input) := by
  constructor
  · intro pre
    have h1 : str_flag (pre ++ ['"']) =
        toggleQuote (lastPrev none pre) '"' (str_flag pre) := by
      unfold str_flag
      rw [str_flag_core_append]
      rfl
    rw [h1, lastPrev_none_eq_getLast]
    unfold toggleQuote
    cases h : pre.getLast? with
    | none =>
      have hpre : pre = [] := List.getLast?_eq_none_iff.mp h
      simp [hpre]
    | some ch =>
      have hne : pre ≠ [] := by
        intro hh
        rw [hh] at h
        exact absurd h (by simp)
      by_cases hc : ch = '\\'
      · subst hc
        cases hsf : str_flag pre <;> simp [hne]
      · have hcb : (ch != '\\') = true := bne_iff_ne.mpr hc
        simp [hcb, hc]
  · intro sc input r h
    exact pp_run_flag sc none input none false 0 r h

theorem quote_toggles_iff_prev_not_backslash_witness :
    ((str_flag (['\\'] ++ ['"']) = !str_flag ['\\']) ↔
      (['\\'] = ([] : List Char) ∨ (['\\'] : List Char).getLast? ≠ some '\\')) ∧
      ((true, 0, ['"']) : Bool × Nat × List Char).1 = str_flag ['"'] :=
  ⟨quote_toggles_iff_prev_not_backslash.1 ['\\'],
    quote_toggles_iff_prev_not_backslash.2 2 ['"'] (true, 0, ['"']) (by decide)⟩

theorem filter_replicate_space (n : Nat) :
    (List.replicate n ' ').filter keep_non_ws = [] := by
  induction n with
  | zero => rfl
  | succ n ih =>
    rw [List.replicate_succ]
    simp [List.filter_cons, keep_non_ws, ih]

theorem filter_newline (d sc : Nat) :
    (newline d sc).filter keep_non_ws = [] := by
  simp [newline, List.filter_cons, keep_non_ws, filter_replicate_space]

theorem filter_write_char (c : Char) (b : Bool) :
    (write_char c b).filter keep_non_ws = List.filter keep_non_ws [c] := by
  unfold write_char
  by_cases h1 : (!b && c == ' ') = true
  · have hc : c = ' ' := eq_of_beq ((Bool.and_eq_true _ _).mp h1).2
    subst hc
    rw [if_pos h1]
    decide
  · rw [if_neg h1]
    by_cases h2 : (!b && c == ':') = true
    · have hc : c = ':' := eq_of_beq ((Bool.and_eq_true _ _).mp h2).2
      subst hc
      rw [if_pos h2]
      decide
    · rw [if_neg h2]

/-- Every chunk the step emits has the same non-whitespace content as the
single character it scanned: only spaces and line breaks are synthesized or
suppressed. -/
theorem pp_step_filter (sc : Nat) (c : Char) (prev next : Option Char)
    (b : Bool) (d : Nat) (b1 : Bool) (d1 : Nat) (out : List Char)
    (h : pp_step sc c prev next b d = some (b1, d1, out)) :
    out.filter keep_non_ws = List.filter keep_non_ws [c] := by
  unfold pp_step at h
  cases ht : toggleQuote prev c b with
  | true =>
    rw [ht] at h
    simp only [if_true, Option.some.injEq, Prod.mk.injEq] at h
    rw [← h.2.2, filter_write_char]
  | false =>
    rw [ht] at h
    simp only [Bool.false_eq_true, if_false] at h
    unfold process_char at h
    by_cases hopen : is_open c = true
    · rw [if_pos hopen] at h
      dsimp only at h
      simp only [Option.some.injEq, Prod.mk.injEq] at h
      rw [← h.2.2, List.filter_append, filter_write_char]
      cases hnx : next.any (fun ch => !is_close ch) with
      | true => simp [filter_newline]
      | false => simp
    · rw [if_neg hopen] at h
      by_cases hclose : is_close c = true
      · rw [if_pos hclose] at h
        by_cases hd : d = 0
        · rw [if_pos hd] at h
          exact absurd h (by simp)
        · rw [if_neg hd] at h
          dsimp only at h
          simp only [Option.some.injEq, Prod.mk.injEq] at h
          rw [← h.2.2, List.filter_append, filter_write_char]
          cases hpv : prev.any (fun ch => !is_open ch) with
          | true => simp [filter_newline]
          | false => simp
      · rw [if_neg hclose] at h
        by_cases hcomma : (c == ',') = true
        · rw [if_pos hcomma] at h
          dsimp only at h
          simp only [Option.some.injEq, Prod.mk.injEq] at h
          rw [← h.2.2, List.filter_append, filter_write_char, filter_newline,
            List.append_nil]
        · rw [if_neg hcomma] at h
          dsimp only at h
          simp only [Option.some.injEq, Prod.mk.injEq] at h
          rw [← h.2.2, filter_write_char]

/-- A successful scan preserves the input's non-whitespace content. -/
theorem pp_run_filter (sc : Nat) (after : Option Char) :
    ∀ (input : List Char) (prev : Option Char) (b : Bool) (d : Nat)
      (bf : Bool) (df : Nat) (out : List Char),
      pp_run sc after prev b d input = some (bf, df, out) →
      out.filter keep_non_ws = input.filter keep_non_ws := by
  intro input
  induction input with
  | nil =>
    intro prev b d bf df out h
    simp only [pp_run, Option.some.injEq, Prod.mk.injEq] at h
    rw [← h.2.2]
  | cons c rest ih =>
    intro prev b d bf df out h
    simp only [pp_run] at h
    cases hstep : pp_step sc c prev (nextChar rest after) b d with
    | none => rw [hstep] at h; exact absurd h (by simp)
    | some r1 =>
      obtain ⟨b1, d1, out1⟩ := r1
      rw [hstep] at h
      dsimp only at h
      cases hrun : pp_run sc after (some c) b1 d1 rest with
      | none => rw [hrun] at h; exact absurd h (by simp)
      | some r2 =>
        obtain ⟨b2, d2, o2⟩ := r2
        rw [hrun] at h
        dsimp only at h
        simp only [Option.some.injEq, Prod.mk.injEq] at h
        rw [← h.2.2, List.filter_append,
          pp_step_filter sc c prev (nextChar rest after) b d b1 d1 out1 hstep,
          ih (some c) b1 d1 b2 d2 o2 hrun,
          show (c :: rest) = [c] ++ rest from rfl, List.filter_append]

/-- C10: whenever the formatter completes, deleting every space and line break
from the output yields exactly the result of deleting every space and line
break from the input: no other character is dropped or inserted and the
relative order of the remaining characters is preserved. -/
theorem filter_ws_preserved (input : List Char) (sc : Nat) (out : List Char)
    (h : pretty_print input sc = some out) :
    out.filter keep_non_ws = input.filter keep_non_ws := by
  unfold pretty_print at h
  cases hrun : pp_run sc none none false 0 input with
  | none => rw [hrun] at h; exact absurd h (by simp)
  | some r =>
    obtain ⟨bf, df, o⟩ := r
    rw [hrun] at h
    simp only [Option.map, Option.some.injEq] at h
    rw [← h]
    exact pp_run_filter sc none input none false 0 bf df o hrun

theorem filter_ws_preserved_witness :
    List.filter keep_non_ws
        ['{', '\n', ' ', ' ', '"', 'a', '"', ':', ' ', '1', '\n', '}'] =
      List.filter keep_non_ws ['{', '"', 'a', '"', ':', '1', '}'] :=
  filter_ws_preserved ['{', '"', 'a', '"', ':', '1', '}'] 2
    ['{', '\n', ' ', ' ', '"', 'a', '"', ':', ' ', '1', '\n', '}'] (by decide)

end PrettyCbor
